import Mathlib

/-!
Verification of the redundant-internal-coordinate setup of pysisyphus
(`pysisyphus/intcoords/setup.py`).

The Python source is shallowly embedded below.  Conventions of the embedding:

* Real-valued quantities (distances, radii, thresholds, weights) are modelled
  over `ℚ`; decimal literals of the source (`3.78`, `1.3`, `0.9`, `0.12`)
  become the corresponding decimal rationals.
* Atom symbols are `String`s, compared after `String.toLower`, exactly as the
  source lowercases symbols before lookup.
* The numeric collaborators that the source imports from outside the core
  (`COVALENT_RADII` / `VDW_RADII` element tables from `elem_data`, the
  primitive capabilities `Stretch._calculate`, `Bend._calculate`,
  `prim_cls._weight`, and the validity checks `bend_valid` /
  `dihedral_valid` from `intcoords.valid`) are abstract parameters, bundled
  in the `Collab` structure; the spec declares them out-of-scope
  collaborators, specified only at their interface.  Comparisons of a
  collaborator angle against a fixed irrational threshold (`> pi/2`,
  `>= max_rad`) are modelled as Boolean-valued collaborator predicates.
* `scipy.spatial.distance.pdist` computes Euclidean distances; its metric is
  the collaborator `Collab.dist`, indexed by atom indices of the fixed input
  geometry; the condensed ordering / squareform bookkeeping is embedded
  explicitly.
* Python iteration over a `set` / `frozenset` has no specified order; where
  the source iterates over such a set, the embedding fixes a deterministic
  order (sorted, or first-occurrence) and notes it; no claim below depends
  on the choice.
-/

/-- Pairs of a list in the enumeration order of Python `itertools.combinations(l, 2)`:
`(l[i], l[j])` for `i < j`, lexicographic by position. -/
def combinations2 {α : Type} : List α → List (α × α)
  | [] => []
  | x :: xs => (xs.map (fun y => (x, y))) ++ combinations2 xs

/-- Cartesian product of two lists in the enumeration order of Python
`itertools.product(l1, l2)` (first factor outermost). -/
def listProd {α β : Type} (l1 : List α) (l2 : List β) : List (α × β) :=
  l1.flatMap (fun a => l2.map (fun b => (a, b)))

/-- Index of the first occurrence of the minimum of a rational list
(`numpy.argmin`); `0` on the empty list (where the source would raise). -/
def argminIdx : List ℚ → ℕ
  | [] => 0
  | [_] => 0
  | x :: y :: ys =>
    let j := argminIdx (y :: ys)
    if x ≤ (y :: ys).getD j 0 then 0 else j + 1

/-- The three primitive-coordinate classes that `setup_redundant` passes to
`keep_coord` (`Stretch`, `Bend`, `Torsion`). -/
inductive PrimClass : Type
  | stretch : PrimClass
  | bend : PrimClass
  | torsion : PrimClass
deriving DecidableEq

/-- The external collaborators of the core, per the spec's interface:
element-radius tables, the Euclidean metric of the fixed input geometry, the
primitive-coordinate capabilities, and the validity checks.  Angle
comparisons against fixed thresholds are folded into Boolean predicates:
`angleGT90 x h y` models `Bend._calculate(coords3d, (x, h, y)) > pi / 2`,
`bendGEmax bend` models `Bend._calculate(coords3d, bend) >= max_rad`,
`degOf bend` models `np.rad2deg(Bend._calculate(coords3d, bend))`, and
`weight pc inds` models `prim_cls._weight(atoms, coords3d, inds, 0.12)`
(the fixed internal scale 0.12 is part of the collaborator call). -/
structure Collab : Type where
  cr : String → ℚ
  vdw : String → ℚ
  dist : ℕ → ℕ → ℚ
  angleGT90 : ℕ → ℕ → ℕ → Bool
  bendValid : List ℕ → Bool
  dihedralValid : List ℕ → Bool
  bendGEmax : List ℕ → Bool
  degOf : List ℕ → ℚ
  weight : PrimClass → List ℕ → ℚ

/-- Symmetric distance accessor: the Euclidean metric evaluated at the pair,
canonicalised to the condensed entry `i < j` (`squareform(cdm)` reads, and
`Stretch._calculate` on a symmetric metric). -/
def dOf (C : Collab) (i j : ℕ) : ℚ :=
  if i = j then 0 else if i < j then C.dist i j else C.dist j i

/-- Python `str.lower` applied to an element symbol, embedded per character
(`String.toLower` itself is not kernel-reducible). -/
def strLower (s : String) : String :=
  String.mk (s.data.map Char.toLower)

/-- Lowercased element symbol of atom `i` (list lookup; out-of-range reads,
an error in the source, default to the empty symbol). -/
def atomAt (atoms : List String) (i : ℕ) : String :=
  strLower (atoms.getD i default)

/-- Embedding of `get_pair_covalent_radii`: the lowercased covalent radii,
summed over `itertools.combinations(cov_radii, 2)` in condensed order. -/
def get_pair_covalent_radii (C : Collab) (atoms : List String) : List ℚ :=
  (combinations2 (atoms.map (fun a => C.cr (strLower a)))).map (fun p => p.1 + p.2)

/-- Embedding of `get_bond_sets`.  Returns `(bond_inds, cdm, cbm)` (the source
returns the latter two only under flags; the flag plumbing is return-shape
sugar).  `cdm` is `pdist(coords3d)` in condensed order, `cbm` the Boolean
mask `cdm <= bond_factor * pair_cov_radii`, and `bond_inds` the condensed
index pairs selected by the mask (`atom_inds[cbm]`). -/
def get_bond_sets (C : Collab) (atoms : List String) (bond_factor : ℚ) :
    List (ℕ × ℕ) × List ℚ × List Bool :=
  let cdm := (combinations2 (List.range atoms.length)).map (fun p => C.dist p.1 p.2)
  let atom_inds := combinations2 (List.range atoms.length)
  let scaled_cr_sums := (get_pair_covalent_radii C atoms).map (fun r => bond_factor * r)
  let cbm := List.zipWith (fun d s => decide (d ≤ s)) cdm scaled_cr_sums
  let bond_inds := ((atom_inds.zip cbm).filter (fun pc => pc.2)).map (fun pc => pc.1)
  (bond_inds, cdm, cbm)

/-- One merge step: the incoming set is unioned with every accumulated set it
intersects; the untouched sets are kept.  Used to model `merge_sets`. -/
def insertMerge (acc : List (Finset ℕ)) (s : Finset ℕ) : List (Finset ℕ) :=
  let hits := acc.filter (fun t => decide (¬ Disjoint s t))
  let rest := acc.filter (fun t => decide (Disjoint s t))
  (hits.foldl (fun a b => a ∪ b) s) :: rest

/-- Modelled from the spec: `merge_sets` from `helpers_pure` (not under
`src/`) — "iterative set-union merge — repeatedly union any two sets sharing
an element until no further union is possible".  Each input set is folded in,
absorbing every accumulated set it intersects, so no two result sets share an
element and the union of the inputs is preserved. -/
def merge_sets (l : List (Finset ℕ)) : List (Finset ℕ) :=
  l.foldl insertMerge []

/-- Embedding of `connect_fragments` for one fragment pair: the minimum
distance cross pair (`argmin`, first occurrence on ties), the `below_max_aux`
pairs (strictly below `max_aux`, primary excluded), and the `above_min_dist`
pairs (strictly below `aux_factor * min_dist`, primary and `below_max_aux`
excluded).  Fragments are given as lists fixing Python's (unspecified)
`frozenset` iteration order. -/
def connectPair (C : Collab) (max_aux aux_factor : ℚ) (frag1 frag2 : List ℕ) :
    (ℕ × ℕ) × List (ℕ × ℕ) :=
  let inds := listProd frag1 frag2
  let distances := inds.map (fun p => dOf C p.1 p.2)
  let min_ind := argminIdx distances
  let min_dist := distances.getD min_ind 0
  let interfrag_bond := inds.getD min_ind (0, 0)
  let below_max_aux :=
    inds.filter (fun p => decide (dOf C p.1 p.2 < max_aux ∧ p ≠ interfrag_bond))
  let scaled_min_dist := aux_factor * min_dist
  let above_min_dist :=
    inds.filter (fun p =>
      decide (dOf C p.1 p.2 < scaled_min_dist ∧ p ≠ interfrag_bond ∧ p ∉ below_max_aux))
  (interfrag_bond, below_max_aux ++ above_min_dist)

/-- Embedding of `connect_fragments`: for every fragment pair from
`itertools.combinations(fragments, 2)`, append the minimum-distance
interfragment bond and extend the auxiliary list by `below_max_aux` then
`above_min_dist`. -/
def connect_fragments (C : Collab) (max_aux aux_factor : ℚ)
    (fragments : List (List ℕ)) : List (ℕ × ℕ) × List (ℕ × ℕ) :=
  let pairs := combinations2 fragments
  (pairs.map (fun fp => (connectPair C max_aux aux_factor fp.1 fp.2).1),
   pairs.flatMap (fun fp => (connectPair C max_aux aux_factor fp.1 fp.2).2))

/-- The electronegative donor/acceptor symbols of `get_hydrogen_bond_inds`
(`"n o f p s cl".split()`). -/
def electronegatives : List String :=
  [ "n", "o", "f", "p", "s", "cl" ]

/-- Embedding of `get_hydrogen_bond_inds`.  For every hydrogen/donor pair from
`itertools.product(hydrogen_inds, x_inds)` whose set is a current bond, every
other electronegative atom `y` (Python iterates `set(x_inds) - {x_ind}`; the
embedding keeps the ascending order of `x_inds`) is emitted as `(h, y)` when
the distance lies strictly between the covalent-radii sum and `0.9` times the
van-der-Waals sum and the collaborator angle test `X-H-Y > 90°` passes. -/
def get_hydrogen_bond_inds (C : Collab) (atoms : List String)
    (bond_inds : List (List ℕ)) : List (ℕ × ℕ) :=
  let tmp_sets := bond_inds.map List.toFinset
  let hydrogen_inds := (List.range atoms.length).filter
    (fun i => decide (atomAt atoms i = "h"))
  let x_inds := (List.range atoms.length).filter
    (fun i => decide (atomAt atoms i ∈ electronegatives))
  hydrogen_inds.flatMap (fun h_ind =>
    x_inds.flatMap (fun x_ind =>
      if ({h_ind, x_ind} : Finset ℕ) ∈ tmp_sets then
        (x_inds.filter (fun y => decide (y ≠ x_ind))).flatMap (fun y_ind =>
          let y_atom := atomAt atoms y_ind
          let cov_rad_sum := C.cr "h" + C.cr y_atom
          let distance := dOf C h_ind y_ind
          let vdwSum := (9 / 10) * (C.vdw "h" + C.vdw y_atom)
          if cov_rad_sum < distance ∧ distance < vdwSum ∧ C.angleGT90 x_ind h_ind y_ind
          then [(h_ind, y_ind)] else [])
      else []))

/-- Modelled from the spec: `sort_by_central` from `helpers_pure` (not under
`src/`) — "the shared atom is the pivot; order the two non-shared atoms by a
canonical rule (smaller-index-first ...) to produce
(terminal1, pivot, terminal2)".  For two bond sets sharing one atom the
result is `[t1, c, t2]` with `t1 ≤ t2`; degenerate inputs (no or several
shared atoms, where the source is out of contract) default components. -/
def sort_by_central (s1 s2 : Finset ℕ) : List ℕ :=
  let common := s1 ∩ s2
  let c := ((common.sort (· ≤ ·)).headD 0)
  let ts := ((s1 ∪ s2) \ common).sort (· ≤ ·)
  [ts.getD 0 0, c, ts.getD 1 0]

/-- Embedding of `get_bend_inds`: over every pair of distinct bond sets
(`itertools.combinations(bond_sets, 2)`; the source re-collects its input
into a `set`, embedded as `List.dedup`), a bend `[t1, c, t2]` is produced
when the two bonds share exactly one atom (union of size 3) and the
collaborator `bend_valid` accepts it. -/
def get_bend_inds (C : Collab) (bond_inds : List (Finset ℕ)) : List (List ℕ) :=
  let bond_sets := bond_inds.dedup
  (combinations2 bond_sets).flatMap (fun bp =>
    let union := bp.1 ∪ bp.2
    if union.card = 3 then
      let indices := sort_by_central bp.1 bp.2
      if C.bendValid indices then [indices] else []
    else [])

/-- Number of bonds of atom `a` read off the condensed bond matrix:
`sum(squareform(cbm)[a])`, i.e. the number of true condensed entries whose
index pair contains `a`. -/
def bondCountOf (cbm : List Bool) (n a : ℕ) : ℕ :=
  (((combinations2 (List.range n)).zip cbm).filter
    (fun pc => (decide (pc.1.1 = a) || decide (pc.1.2 = a)) && pc.2)).length

/-- Embedding of `get_linear_bend_inds`: a bend is (close to) linear when its
collaborator angle in degrees reaches `min_deg` and its central atom has at
most `max_bonds` bonds in the condensed bond matrix. -/
def get_linear_bend_inds (C : Collab) (cbm : List Bool) (n : ℕ)
    (bend_inds : List (List ℕ)) (min_deg : ℚ) (max_bonds : ℕ) : List (List ℕ) :=
  bend_inds.filter (fun bend =>
    decide (min_deg ≤ C.degOf bend) && decide (bondCountOf cbm n (bend.getD 1 0) ≤ max_bonds))

/-- Adjacency list `bond_dict` of `get_dihedral_inds`: for each bond
`(from_, to_)` in input order, `to_` is appended to the neighbours of
`from_` and `from_` to the neighbours of `to_`. -/
def neighborsOf (bond_inds : List (ℕ × ℕ)) (a : ℕ) : List ℕ :=
  bond_inds.flatMap (fun b =>
    (if b.1 = a then [b.2] else []) ++ (if b.2 = a then [b.1] else []))

/-- Embedding of the closure `set_dihedral_index` of `get_dihedral_inds`: a
candidate already present in either orientation is dropped, an invalid
candidate (collinear atoms, collaborator `dihedral_valid`) is dropped, and
anything else is appended.  The source appends to `dihedral_inds` and
`dihedrals` in lockstep; the embedding keeps the single list. -/
def set_dihedral_index (valid : List ℕ → Bool) (ds : List (List ℕ))
    (d : List ℕ) : List (List ℕ) :=
  if d ∈ ds ∨ d.reverse ∈ ds then ds
  else if valid d then ds ++ [d] else ds

/-- One iteration of the `for bond, bend in it.product(bond_inds, bend_inds)`
loop of `get_dihedral_inds`, acting on the state
`(dihedral_inds, improper_dihedrals)`.  Set extractions on singleton
`frozenset`s (`tuple(s)[0]`, `list(s)`) are embedded as sorted extraction;
`set(bond_dict[bend_terminal]) - {central}` (unspecified iteration order) is
embedded as `List.dedup` (last occurrence) plus a filter. -/
def dihedStep (C : Collab) (bond_inds : List (ℕ × ℕ))
    (st : List (List ℕ) × List (List ℕ)) (bb : (ℕ × ℕ) × List ℕ) :
    List (List ℕ) × List (List ℕ) :=
  let bond := bb.1
  let bend := bb.2
  let central := bend.getD 1 0
  let bendSet := bend.toFinset
  let bondSet : Finset ℕ := {bond.1, bond.2}
  let intersect := bendSet ∩ bondSet
  if intersect.card ≠ 1 then st
  else if central ∉ bondSet then
    let intersecting_atom := if bond.1 ∈ bendSet then bond.1 else bond.2
    let terminal := if bond.1 ∈ bendSet then bond.2 else bond.1
    let bend_terminal := (((bendSet.erase central).erase intersecting_atom).sort (· ≤ ·)).headD 0
    let cands :=
      if C.bendGEmax bend then
        (((neighborsOf bond_inds bend_terminal).dedup).filter
          (fun b => decide (b ≠ central))).map
          (fun btb => [terminal, intersecting_atom, bend_terminal, btb])
      else if intersecting_atom = bend.getD 0 0 then [terminal :: bend]
      else [bend ++ [terminal]]
    (cands.foldl (set_dihedral_index C.dihedralValid) st.1, st.2)
  else
    let fourth_atom := (bondSet.erase central).sort (· ≤ ·)
    let dihedral_ind := bend ++ fourth_atom
    if C.dihedralValid dihedral_ind then (st.1, st.2 ++ [dihedral_ind]) else st

/-- The full bond-times-bend loop of `get_dihedral_inds`, returning the
accepted proper dihedrals and the collected (valid) improper candidates. -/
def dihedLoop (C : Collab) (bond_inds : List (ℕ × ℕ))
    (bend_inds : List (List ℕ)) : List (List ℕ) × List (List ℕ) :=
  (listProd bond_inds bend_inds).foldl (dihedStep C bond_inds) ([], [])

/-- Embedding of `get_dihedral_inds`; `n` is `len(coords3d)`.  After the main
loop, when at least 4 atoms are present and no proper dihedral was accepted,
the improper candidates are promoted through `set_dihedral_index`. -/
def get_dihedral_inds (C : Collab) (n : ℕ) (bond_inds : List (ℕ × ℕ))
    (bend_inds : List (List ℕ)) : List (List ℕ) :=
  let st := dihedLoop C bond_inds bend_inds
  if 4 ≤ n ∧ st.1 = [] then st.2.foldl (set_dihedral_index C.dihedralValid) st.1
  else st.1

/-- Embedding of `sort_by_prim_type`, which buckets the `define_prims` items
by length (2 = bond, 3 = bend, 4 = torsion).  Items of other lengths are out
of contract in the source (an index error, or aliasing through Python's
negative indexing) and are dropped here. -/
def sort_by_prim_type (to_sort : List (List ℕ)) :
    List (List ℕ) × List (List ℕ) × List (List ℕ) :=
  (to_sort.filter (fun l => decide (l.length = 2)),
   to_sort.filter (fun l => decide (l.length = 3)),
   to_sort.filter (fun l => decide (l.length = 4)))

/-- Embedding of the closure `keep_coord` of `setup_redundant`: with no
`min_weight` every candidate is kept, otherwise the collaborator weight (at
the fixed internal scale 0.12) must reach the threshold. -/
def keep_coord (C : Collab) (min_weight : Option ℚ) (prim_cls : PrimClass)
    (prim_inds : List ℕ) : Bool :=
  match min_weight with
  | none => true
  | some w => decide (w ≤ C.weight prim_cls prim_inds)

/-- A bond pair as the 2-element index list used by `setup_redundant`. -/
def pairToList (p : ℕ × ℕ) : List ℕ :=
  [p.1, p.2]

/-- A 2-element `frozenset` unpacked to an index pair (ascending; Python's
`for from_, to_ in bond_inds` over a set of `frozenset`s has no specified
order). -/
def finsetToPair (f : Finset ℕ) : ℕ × ℕ :=
  ((f.sort (· ≤ ·)).getD 0 0, (f.sort (· ≤ ·)).getD 1 0)

/-- The aggregate result of `setup_redundant` (the `CoordInfo` namedtuple). -/
structure CoordInfo : Type where
  bonds : List (List ℕ)
  hydrogen_bonds : List (ℕ × ℕ)
  interfrag_bonds : List (ℕ × ℕ)
  aux_interfrag_bonds : List (ℕ × ℕ)
  bends : List (List ℕ)
  linear_bends : List (List ℕ)
  dihedrals : List (List ℕ)
  fragments : List (Finset ℕ)
  cdm : List ℚ
  cbm : List Bool
deriving DecidableEq

/-- Stage of `setup_redundant`: the bond list `bond_inds` after
`bond_inds = [tuple(bond) for bond in bond_inds]; bond_inds += def_bonds`. -/
def bondIndsOf (C : Collab) (atoms : List String) (factor : ℚ)
    (define_prims : List (List ℕ)) : List (List ℕ) :=
  ((get_bond_sets C atoms factor).1.map pairToList) ++ (sort_by_prim_type define_prims).1

/-- Stage of `setup_redundant`: `bond_ind_sets`, the weight-filtered bonds as
`frozenset`s (the only place the bond weight filter is applied). -/
def bondIndSetsOf (C : Collab) (atoms : List String) (factor : ℚ)
    (define_prims : List (List ℕ)) (min_weight : Option ℚ) : List (Finset ℕ) :=
  ((bondIndsOf C atoms factor define_prims).filter
    (fun bond => keep_coord C min_weight PrimClass.stretch bond)).map List.toFinset

/-- Stage of `setup_redundant`: the fragment list — `merge_sets` of the
weight-filtered bond sets, extended by a singleton fragment for every atom of
`range(len(atoms))` not appearing in the (unfiltered) bond list. -/
def fragmentsOf (C : Collab) (atoms : List String) (factor : ℚ)
    (define_prims : List (List ℕ)) (min_weight : Option ℚ) : List (Finset ℕ) :=
  merge_sets (bondIndSetsOf C atoms factor define_prims min_weight) ++
    (((List.range atoms.length).filter
      (fun a => decide (a ∉ (bondIndsOf C atoms factor define_prims).flatten))).map
      (fun a => ({a} : Finset ℕ)))

/-- Stage of `setup_redundant`: `connect_fragments(cdm, fragments)` at the
default cutoffs `max_aux = 3.78`, `aux_factor = 1.3`; each fragment
`frozenset` is enumerated in ascending order. -/
def interfragOf (C : Collab) (atoms : List String) (factor : ℚ)
    (define_prims : List (List ℕ)) (min_weight : Option ℚ) :
    List (ℕ × ℕ) × List (ℕ × ℕ) :=
  connect_fragments C (378 / 100) (13 / 10)
    ((fragmentsOf C atoms factor define_prims min_weight).map (fun f => f.sort (· ≤ ·)))

/-- Stage of `setup_redundant`: `bonds_for_bends`, the `set` of the
(unfiltered) bonds, hydrogen bonds and primary interfragment bonds (embedded
as `List.dedup`; auxiliary interfragment bonds are excluded). -/
def bondsForBendsOf (C : Collab) (atoms : List String) (factor : ℚ)
    (define_prims : List (List ℕ)) (min_weight : Option ℚ) : List (Finset ℕ) :=
  ((bondIndsOf C atoms factor define_prims ++
    (get_hydrogen_bond_inds C atoms (bondIndsOf C atoms factor define_prims)).map pairToList ++
    ((interfragOf C atoms factor define_prims min_weight).1.map pairToList)).map
      List.toFinset).dedup

/-- Stage of `setup_redundant`: the bend list after detection, `+= def_bends`
and the bend weight filter. -/
def bendIndsOf (C : Collab) (atoms : List String) (factor : ℚ)
    (define_prims : List (List ℕ)) (min_weight : Option ℚ) : List (List ℕ) :=
  ((get_bend_inds C (bondsForBendsOf C atoms factor define_prims min_weight)) ++
    (sort_by_prim_type define_prims).2.1).filter
    (fun bend => keep_coord C min_weight PrimClass.bend bend)

/-- Stage of `setup_redundant`: `linear_bend_inds` (empty when `lb_min_deg`
is `None`, its default). -/
def linearBendsOf (C : Collab) (atoms : List String) (factor : ℚ)
    (define_prims : List (List ℕ)) (min_weight : Option ℚ)
    (lb_min_deg : Option ℚ) (lb_max_bonds : ℕ) : List (List ℕ) :=
  match lb_min_deg with
  | none => []
  | some d =>
    get_linear_bend_inds C (get_bond_sets C atoms factor).2.2 atoms.length
      (bendIndsOf C atoms factor define_prims min_weight) d lb_max_bonds

/-- Stage of `setup_redundant`: the final bend list (linear bends removed
when `lb_min_deg` is set). -/
def finalBendsOf (C : Collab) (atoms : List String) (factor : ℚ)
    (define_prims : List (List ℕ)) (min_weight : Option ℚ)
    (lb_min_deg : Option ℚ) (lb_max_bonds : ℕ) : List (List ℕ) :=
  match lb_min_deg with
  | none => bendIndsOf C atoms factor define_prims min_weight
  | some _ =>
    (bendIndsOf C atoms factor define_prims min_weight).filter
      (fun bend => decide (bend ∉
        linearBendsOf C atoms factor define_prims min_weight lb_min_deg lb_max_bonds))

/-- Stage of `setup_redundant`: the torsion list — `get_dihedral_inds` on
`bonds_for_bends` and the final bends, `+= def_dihedrals`, then the torsion
weight filter. -/
def dihedralIndsOf (C : Collab) (atoms : List String) (factor : ℚ)
    (define_prims : List (List ℕ)) (min_weight : Option ℚ)
    (lb_min_deg : Option ℚ) (lb_max_bonds : ℕ) : List (List ℕ) :=
  ((get_dihedral_inds C atoms.length
      ((bondsForBendsOf C atoms factor define_prims min_weight).map finsetToPair)
      (finalBendsOf C atoms factor define_prims min_weight lb_min_deg lb_max_bonds)) ++
    (sort_by_prim_type define_prims).2.2).filter
    (fun dihedral => keep_coord C min_weight PrimClass.torsion dihedral)

/-- Embedding of `setup_redundant`, assembling the `CoordInfo` from the
stages above; the numeric inputs are the collaborator bundle `C`, the atom
symbols, the bond `factor`, the extra `define_prims`, `min_weight`, and the
linear-bend options `lb_min_deg` / `lb_max_bonds`. -/
def setup_redundant (C : Collab) (atoms : List String) (factor : ℚ)
    (define_prims : List (List ℕ)) (min_weight : Option ℚ)
    (lb_min_deg : Option ℚ) (lb_max_bonds : ℕ) : CoordInfo :=
  { bonds := bondIndsOf C atoms factor define_prims
    hydrogen_bonds := get_hydrogen_bond_inds C atoms (bondIndsOf C atoms factor define_prims)
    interfrag_bonds := (interfragOf C atoms factor define_prims min_weight).1
    aux_interfrag_bonds := (interfragOf C atoms factor define_prims min_weight).2
    bends := finalBendsOf C atoms factor define_prims min_weight lb_min_deg lb_max_bonds
    linear_bends := linearBendsOf C atoms factor define_prims min_weight lb_min_deg lb_max_bonds
    dihedrals := dihedralIndsOf C atoms factor define_prims min_weight lb_min_deg lb_max_bonds
    fragments := fragmentsOf C atoms factor define_prims min_weight
    cdm := (get_bond_sets C atoms factor).2.1
    cbm := (get_bond_sets C atoms factor).2.2 }

/-! ### List infrastructure lemmas -/

theorem combinations2_map {α β : Type} (f : α → β) (l : List α) :
    combinations2 (l.map f) = (combinations2 l).map (Prod.map f f) := by
  induction l with
  | nil => rfl
  | cons x xs ih =>
    simp [combinations2, ih, List.map_map]

theorem mem_combinations2_append_singleton {α : Type} (l : List α) (x : α) (p : α × α) :
    p ∈ combinations2 (l ++ [x]) ↔ p ∈ combinations2 l ∨ ∃ a ∈ l, p = (a, x) := by
  induction l with
  | nil => simp [combinations2]
  | cons y ys ih =>
    simp only [List.cons_append, combinations2, List.append_eq, List.mem_append,
      List.mem_map, ih, List.mem_cons, List.not_mem_nil, or_false]
    constructor
    · rintro (⟨a, (ha | rfl), rfl⟩ | h | ⟨a, ha, rfl⟩)
      · exact Or.inl (Or.inl ⟨a, ha, rfl⟩)
      · exact Or.inr ⟨y, Or.inl rfl, rfl⟩
      · exact Or.inl (Or.inr h)
      · exact Or.inr ⟨a, Or.inr ha, rfl⟩
    · rintro ((⟨a, ha, rfl⟩ | h) | ⟨a, (rfl | ha), rfl⟩)
      · exact Or.inl ⟨a, Or.inl ha, rfl⟩
      · exact Or.inr (Or.inl h)
      · exact Or.inl ⟨x, Or.inr rfl, rfl⟩
      · exact Or.inr (Or.inr ⟨a, ha, rfl⟩)

theorem range_map_getD {α : Type} (l : List α) (d : α) :
    (List.range l.length).map (fun i => l.getD i d) = l := by
  apply List.ext_getElem
  · simp
  · intro i h1 h2
    simp [List.getD_eq_getElem?_getD, List.getElem?_eq_getElem h2]

theorem mem_combinations2_range (n : ℕ) (p : ℕ × ℕ) :
    p ∈ combinations2 (List.range n) ↔ p.1 < p.2 ∧ p.2 < n := by
  induction n with
  | zero => simp [combinations2]
  | succ m ih =>
    rw [List.range_succ]
    rcases p with ⟨a, b⟩
    rw [mem_combinations2_append_singleton]
    simp only [ih, List.mem_range, Prod.mk.injEq]
    constructor
    · rintro (⟨h1, h2⟩ | ⟨c, hc, rfl, rfl⟩) <;> omega
    · rintro ⟨h1, h2⟩
      rcases Nat.lt_or_ge b m with hb | hb
      · exact Or.inl ⟨h1, hb⟩
      · exact Or.inr ⟨a, by omega, rfl, by omega⟩

theorem zip_mask_filter {α : Type} (l : List α) (m : α → Bool) :
    ((l.zip (l.map m)).filter (fun pc => pc.2)).map (fun pc => pc.1) = l.filter m := by
  induction l with
  | nil => rfl
  | cons x xs ih =>
    by_cases h : m x <;>
      simp [List.filter_cons, h, ih]

theorem zipWith_decide_map {α : Type} (l : List α) (f g : α → ℚ) :
    List.zipWith (fun d s => decide (d ≤ s)) (l.map f) (l.map g) =
    l.map (fun a => decide (f a ≤ g a)) := by
  induction l with
  | nil => rfl
  | cons x xs ih => simp [ih]

theorem get_pair_covalent_radii_eq (C : Collab) (atoms : List String) :
    get_pair_covalent_radii C atoms =
    (combinations2 (List.range atoms.length)).map
      (fun p => C.cr (atomAt atoms p.1) + C.cr (atomAt atoms p.2)) := by
  unfold get_pair_covalent_radii
  have h1 : atoms.map (fun a => C.cr (strLower a)) =
      (List.range atoms.length).map (fun i => C.cr (atomAt atoms i)) := by
    conv_lhs => rw [← range_map_getD atoms default]
    simp [List.map_map, atomAt]
  rw [h1, combinations2_map]
  simp [List.map_map]

theorem get_bond_sets_cdm (C : Collab) (atoms : List String) (factor : ℚ) :
    (get_bond_sets C atoms factor).2.1 =
    (combinations2 (List.range atoms.length)).map (fun p => C.dist p.1 p.2) := rfl

theorem get_bond_sets_cbm (C : Collab) (atoms : List String) (factor : ℚ) :
    (get_bond_sets C atoms factor).2.2 =
    (combinations2 (List.range atoms.length)).map
      (fun p => decide (C.dist p.1 p.2 ≤
        factor * (C.cr (atomAt atoms p.1) + C.cr (atomAt atoms p.2)))) := by
  show List.zipWith _ _ _ = _
  rw [get_pair_covalent_radii_eq]
  rw [List.map_map, zipWith_decide_map]
  rfl

theorem get_bond_sets_fst (C : Collab) (atoms : List String) (factor : ℚ) :
    (get_bond_sets C atoms factor).1 =
    (combinations2 (List.range atoms.length)).filter
      (fun p => decide (C.dist p.1 p.2 ≤
        factor * (C.cr (atomAt atoms p.1) + C.cr (atomAt atoms p.2)))) := by
  have h := get_bond_sets_cbm C atoms factor
  show ((List.zip _ ((get_bond_sets C atoms factor).2.2)).filter _).map _ = _
  rw [h]
  exact zip_mask_filter (combinations2 (List.range atoms.length)) _

theorem combinations2_range_nil (n : ℕ) (h : n ≤ 1) :
    combinations2 (List.range n) = [] := by
  match n, h with
  | 0, _ => rfl
  | 1, _ => rfl

/-! ### Concrete example inputs (used by witnesses, counterexamples and
demonstration conjuncts) -/

/-- A concrete collaborator bundle over four atoms `p q q p`: a chain
`0-1-2-3` of unit-length bonds, a short non-bonded contact `d(0,3) = 1/2`,
and a weight function that puts only the bond `(1, 2)` below 1. -/
def exC1 : Collab :=
  { cr := fun a => if a = "p" then 1 / 10 else 1
    vdw := fun _ => 0
    dist := fun i j =>
      if (i, j) = (0, 1) then 1 else if (i, j) = (1, 2) then 1
      else if (i, j) = (2, 3) then 1 else if (i, j) = (0, 3) then 1 / 2 else 100
    angleGT90 := fun _ _ _ => true
    bendValid := fun _ => true
    dihedralValid := fun _ => true
    bendGEmax := fun _ => false
    degOf := fun _ => 0
    weight := fun pc l => if pc = PrimClass.stretch ∧ l = [1, 2] then 0 else 2 }

/-- Atom symbols for `exC1`. -/
def exAtoms1 : List String :=
  [ "p", "q", "q", "p" ]

/-!
### C8 / C9: `get_bond_sets`
-/

/-- C8: an atom pair `i < j` is a detected bond iff its distance is at most
`factor` times the covalent-radii sum; entry `k` of `cbm` is true iff
`cdm[k]` is at most `factor` times the covalent-radii sum of the pair at
condensed index `k`; with at most one atom every output is empty. -/
theorem claim_C8 (C : Collab) (atoms : List String) (factor : ℚ) (i j k : ℕ)
    (hij : i < j) (hj : j < atoms.length)
    (hk : k < (combinations2 (List.range atoms.length)).length) :
    ((i, j) ∈ (get_bond_sets C atoms factor).1 ↔
      C.dist i j ≤ factor * (C.cr (atomAt atoms i) + C.cr (atomAt atoms j)))
    ∧ ((get_bond_sets C atoms factor).2.2.getD k false = true ↔
        (get_bond_sets C atoms factor).2.1.getD k 0 ≤ factor *
          (C.cr (atomAt atoms ((combinations2 (List.range atoms.length)).getD k (0, 0)).1) +
           C.cr (atomAt atoms ((combinations2 (List.range atoms.length)).getD k (0, 0)).2)))
    ∧ (atoms.length ≤ 1 → (get_bond_sets C atoms factor).1 = []
        ∧ (get_bond_sets C atoms factor).2.1 = []
        ∧ (get_bond_sets C atoms factor).2.2 = []) := by
  refine ⟨?_, ?_, ?_⟩
  · rw [get_bond_sets_fst]
    simp [List.mem_filter, mem_combinations2_range, hij, hj]
  · rw [get_bond_sets_cbm, get_bond_sets_cdm]
    have hk1 : k < ((combinations2 (List.range atoms.length)).map
        (fun p => decide (C.dist p.1 p.2 ≤
          factor * (C.cr (atomAt atoms p.1) + C.cr (atomAt atoms p.2))))).length := by
      simpa using hk
    have hk2 : k < ((combinations2 (List.range atoms.length)).map
        (fun p => C.dist p.1 p.2)).length := by simpa using hk
    rw [List.getD_eq_getElem _ _ hk1, List.getD_eq_getElem _ _ hk2,
      List.getD_eq_getElem _ _ hk]
    simp
  · intro hle
    have h0 : combinations2 (List.range atoms.length) = [] :=
      combinations2_range_nil _ hle
    refine ⟨?_, ?_, ?_⟩
    · rw [get_bond_sets_fst, h0]; rfl
    · rw [get_bond_sets_cdm, h0]; rfl
    · rw [get_bond_sets_cbm, h0]; rfl

/-- Witness for C8 at the concrete input `exC1` / `exAtoms1`: the first
conjunct applied to the bonded pair `(0, 1)` and condensed index `0`. -/
theorem claim_C8_witness : (0, 1) ∈ (get_bond_sets exC1 exAtoms1 (13 / 10)).1 :=
  ((claim_C8 exC1 exAtoms1 (13 / 10) 0 1 0 (by decide) (by decide)
    (by decide)).1).mpr (by with_unfolding_all decide)

/-- C9: bond detection is monotone in the scale factor — with nonnegative
covalent radii, every bond detected at factor `f1 ≤ f2` is detected at `f2`. -/
theorem claim_C9 (C : Collab) (atoms : List String) (f1 f2 : ℚ)
    (hcr : ∀ a : String, 0 ≤ C.cr a) (hf : f1 ≤ f2) (p : ℕ × ℕ)
    (hp : p ∈ (get_bond_sets C atoms f1).1) :
    p ∈ (get_bond_sets C atoms f2).1 := by
  rw [get_bond_sets_fst] at hp ⊢
  rw [List.mem_filter] at hp ⊢
  refine ⟨hp.1, ?_⟩
  have h2 := of_decide_eq_true hp.2
  have hs : 0 ≤ C.cr (atomAt atoms p.1) + C.cr (atomAt atoms p.2) :=
    add_nonneg (hcr _) (hcr _)
  exact decide_eq_true
    (le_trans h2 (mul_le_mul_of_nonneg_right hf hs))

/-- Witness for C9 at the concrete input `exC1` / `exAtoms1`, factors
`13/10 ≤ 2`. -/
theorem claim_C9_witness : (0, 1) ∈ (get_bond_sets exC1 exAtoms1 2).1 :=
  claim_C9 exC1 exAtoms1 (13 / 10) 2
    (fun a => by
      show (0 : ℚ) ≤ if a = "p" then 1 / 10 else 1
      split <;> norm_num)
    (by norm_num) (0, 1) (by with_unfolding_all decide)

/-!
### C2 / C10: `get_hydrogen_bond_inds`
-/

theorem mem_ite_nil {α : Type} (P : Prop) [Decidable P] (l : List α) (a : α) :
    (a ∈ if P then l else []) ↔ P ∧ a ∈ l := by
  split <;> simp_all

/-- Membership in the hydrogen-bond output: `(a, b)` is emitted iff `a` is a
hydrogen bonded (in the given set) to some electronegative donor `x ≠ b`,
`b` is electronegative, the `a`-`b` distance lies strictly inside the
covalent/van-der-Waals window, and the donor angle test passes.  (No
condition excludes a `b` already bonded to `a`.) -/
theorem get_hydrogen_bond_inds_mem (C : Collab) (atoms : List String)
    (bond_inds : List (List ℕ)) (a b : ℕ) :
    (a, b) ∈ get_hydrogen_bond_inds C atoms bond_inds ↔
    (a < atoms.length ∧ atomAt atoms a = "h" ∧ b < atoms.length ∧
      atomAt atoms b ∈ electronegatives ∧
      C.cr "h" + C.cr (atomAt atoms b) < dOf C a b ∧
      dOf C a b < (9 / 10) * (C.vdw "h" + C.vdw (atomAt atoms b)) ∧
      ∃ x : ℕ, x < atoms.length ∧ atomAt atoms x ∈ electronegatives ∧ x ≠ b ∧
        ({a, x} : Finset ℕ) ∈ bond_inds.map List.toFinset ∧
        C.angleGT90 x a b = true) := by
  unfold get_hydrogen_bond_inds
  simp only [List.mem_flatMap, List.mem_filter, List.mem_range, mem_ite_nil,
    List.mem_singleton, decide_eq_true_eq, Prod.mk.injEq]
  constructor
  · rintro ⟨hi, ⟨hin, hih⟩, xi, ⟨xin, xie⟩, hbond, yi, ⟨⟨yin, yie⟩, hyx⟩,
      ⟨hw1, hw2, hang⟩, rfl, rfl⟩
    exact ⟨hin, hih, yin, yie, hw1, hw2, xi, xin, xie, Ne.symm hyx, hbond, hang⟩
  · rintro ⟨hin, hih, yin, yie, hw1, hw2, xi, xin, xie, hxy, hbond, hang⟩
    exact ⟨a, ⟨hin, hih⟩, xi, ⟨xin, xie⟩, hbond, b, ⟨⟨yin, yie⟩, Ne.symm hxy⟩,
      ⟨hw1, hw2, hang⟩, rfl, rfl⟩

/-- A concrete collaborator for the hydrogen-bond detector: unit covalent
radii, van-der-Waals radii 2 (window `(2, 18/5)`), all angles accepted, and
distances placing `(0, 2)` and `(0, 3)` inside the window and every other
pair below it. -/
def exHB : Collab :=
  { cr := fun _ => 1
    vdw := fun _ => 2
    dist := fun i j =>
      if (i, j) = (0, 2) then 3 else if (i, j) = (0, 3) then 3 else 1
    angleGT90 := fun _ _ _ => true
    bendValid := fun _ => true
    dihedralValid := fun _ => true
    bendGEmax := fun _ => false
    degOf := fun _ => 0
    weight := fun _ _ => 2 }

/-- C2 (counterexample): on `atoms = [h, o, o]` with bonds `{0,1}` and
`{0,2}`, the pair `(0, 2)` is reported as a hydrogen bond even though atom 2
is already bonded to the hydrogen — there is no
"not already bonded" exclusion, refuting the claimed characterisation. -/
theorem claim_C2_counterexample :
    (0, 2) ∈ get_hydrogen_bond_inds exHB [ "h", "o", "o" ] [[0, 1], [0, 2]] ∧
    ¬ (∃ x : ℕ, x < 3 ∧ atomAt [ "h", "o", "o" ] x ∈ electronegatives ∧ x ≠ 2 ∧
        ({0, x} : Finset ℕ) ∈ ([[0, 1], [0, 2]] : List (List ℕ)).map List.toFinset ∧
        ({0, 2} : Finset ℕ) ∉ ([[0, 1], [0, 2]] : List (List ℕ)).map List.toFinset) := by
  constructor
  · with_unfolding_all decide
  · rintro ⟨x, -, -, -, -, hnb⟩
    exact hnb (by with_unfolding_all decide)

/-- C2 (amended): the hydrogen-bond detector emits `(a, b)` iff `a` is a
hydrogen bonded to some electronegative donor `x ≠ b`, `b` is
electronegative, the `a`-`b` distance lies strictly between the
covalent-radii sum and `0.9` times the van-der-Waals sum, and the donor
angle exceeds 90 degrees — with no exclusion of acceptors already bonded to
the hydrogen. -/
theorem claim_C2_amended (C : Collab) (atoms : List String)
    (bond_inds : List (List ℕ)) (a b : ℕ) :
    (a, b) ∈ get_hydrogen_bond_inds C atoms bond_inds ↔
    (a < atoms.length ∧ atomAt atoms a = "h" ∧ b < atoms.length ∧
      atomAt atoms b ∈ electronegatives ∧
      C.cr "h" + C.cr (atomAt atoms b) < dOf C a b ∧
      dOf C a b < (9 / 10) * (C.vdw "h" + C.vdw (atomAt atoms b)) ∧
      ∃ x : ℕ, x < atoms.length ∧ atomAt atoms x ∈ electronegatives ∧ x ≠ b ∧
        ({a, x} : Finset ℕ) ∈ bond_inds.map List.toFinset ∧
        C.angleGT90 x a b = true) :=
  get_hydrogen_bond_inds_mem C atoms bond_inds a b

/-- C10: with the hydrogen 0 bonded to the two donors 1 and 2 and the third
electronegative atom 3 passing the window and angle tests for both donors,
the pair `(0, 3)` is emitted twice — the detector does not deduplicate
across donors. -/
theorem claim_C10 :
    ((get_hydrogen_bond_inds exHB [ "h", "o", "o", "o" ] [[0, 1], [0, 2]]).count (0, 3) = 2) ∧
    ({0, 1} : Finset ℕ) ∈ ([[0, 1], [0, 2]] : List (List ℕ)).map List.toFinset ∧
    ({0, 2} : Finset ℕ) ∈ ([[0, 1], [0, 2]] : List (List ℕ)).map List.toFinset := by
  refine ⟨?_, by with_unfolding_all decide, by with_unfolding_all decide⟩
  with_unfolding_all decide

/-!
### C3: fragments partition the atom range
-/

theorem foldl_union_mem (L : List (Finset ℕ)) (s : Finset ℕ) (x : ℕ) :
    (x ∈ L.foldl (fun a b => a ∪ b) s) ↔ x ∈ s ∨ ∃ t ∈ L, x ∈ t := by
  induction L generalizing s with
  | nil => simp
  | cons u L ih =>
    rw [List.foldl_cons, ih]
    simp only [Finset.mem_union, List.mem_cons]
    constructor
    · rintro ((hx | hx) | ⟨t, ht, hx⟩)
      · exact Or.inl hx
      · exact Or.inr ⟨u, Or.inl rfl, hx⟩
      · exact Or.inr ⟨t, Or.inr ht, hx⟩
    · rintro (hx | ⟨t, (rfl | ht), hx⟩)
      · exact Or.inl (Or.inl hx)
      · exact Or.inl (Or.inr hx)
      · exact Or.inr ⟨t, ht, hx⟩

theorem insertMerge_mem (acc : List (Finset ℕ)) (s : Finset ℕ) (x : ℕ) :
    (∃ t ∈ insertMerge acc s, x ∈ t) ↔ x ∈ s ∨ ∃ t ∈ acc, x ∈ t := by
  unfold insertMerge
  simp only [List.mem_cons, List.mem_filter, decide_eq_true_eq]
  constructor
  · rintro ⟨t, (rfl | ⟨hta, -⟩), hx⟩
    · rw [foldl_union_mem] at hx
      rcases hx with hx | ⟨u, hu, hx⟩
      · exact Or.inl hx
      · exact Or.inr ⟨u, (List.mem_filter.mp hu).1, hx⟩
    · exact Or.inr ⟨t, hta, hx⟩
  · rintro (hx | ⟨t, hta, hx⟩)
    · exact ⟨_, Or.inl rfl, (foldl_union_mem _ _ _).mpr (Or.inl hx)⟩
    · by_cases hd : Disjoint s t
      · exact ⟨t, Or.inr ⟨hta, hd⟩, hx⟩
      · refine ⟨_, Or.inl rfl, (foldl_union_mem _ _ _).mpr (Or.inr ⟨t, ?_, hx⟩)⟩
        exact List.mem_filter.mpr ⟨hta, by simpa using hd⟩

theorem insertMerge_pairwise (acc : List (Finset ℕ)) (s : Finset ℕ)
    (hP : acc.Pairwise Disjoint) : (insertMerge acc s).Pairwise Disjoint := by
  unfold insertMerge
  rw [List.pairwise_cons]
  refine ⟨?_, hP.sublist (List.filter_sublist acc)⟩
  intro t ht
  have ht' := List.mem_filter.mp ht
  have hdt : Disjoint s t := by simpa using ht'.2
  rw [Finset.disjoint_left]
  intro x hx
  rw [foldl_union_mem] at hx
  rcases hx with hx | ⟨u, hu, hx⟩
  · exact Finset.disjoint_left.mp hdt hx
  · have hu' := List.mem_filter.mp hu
    have hnd : ¬ Disjoint s u := by simpa using hu'.2
    have hut : u ≠ t := fun he => hnd (he ▸ hdt)
    have hD : Disjoint u t :=
      (hP.forall (fun _ _ h => h.symm)) hu'.1 ht'.1 hut
    exact Finset.disjoint_left.mp hD hx

theorem foldl_insertMerge_mem (l : List (Finset ℕ)) (acc : List (Finset ℕ)) (x : ℕ) :
    (∃ t ∈ l.foldl insertMerge acc, x ∈ t) ↔
      (∃ t ∈ acc, x ∈ t) ∨ ∃ s ∈ l, x ∈ s := by
  induction l generalizing acc with
  | nil => simp
  | cons s l ih =>
    rw [List.foldl_cons, ih, insertMerge_mem]
    simp only [List.mem_cons]
    constructor
    · rintro ((hx | h) | ⟨u, hu, hx⟩)
      · exact Or.inr ⟨s, Or.inl rfl, hx⟩
      · exact Or.inl h
      · exact Or.inr ⟨u, Or.inr hu, hx⟩
    · rintro (h | ⟨u, (rfl | hu), hx⟩)
      · exact Or.inl (Or.inr h)
      · exact Or.inl (Or.inl hx)
      · exact Or.inr ⟨u, hu, hx⟩

theorem merge_sets_mem (l : List (Finset ℕ)) (x : ℕ) :
    (∃ t ∈ merge_sets l, x ∈ t) ↔ ∃ s ∈ l, x ∈ s := by
  unfold merge_sets
  rw [foldl_insertMerge_mem]
  simp

theorem foldl_insertMerge_pairwise (l : List (Finset ℕ)) (acc : List (Finset ℕ))
    (hP : acc.Pairwise Disjoint) : (l.foldl insertMerge acc).Pairwise Disjoint := by
  induction l generalizing acc with
  | nil => exact hP
  | cons s l ih => exact ih _ (insertMerge_pairwise _ _ hP)

theorem merge_sets_pairwise (l : List (Finset ℕ)) :
    (merge_sets l).Pairwise Disjoint :=
  foldl_insertMerge_pairwise l [] List.Pairwise.nil

theorem countP_eq_one_of_pairwise_disjoint (L : List (Finset ℕ))
    (hP : L.Pairwise Disjoint) (t : Finset ℕ) (ht : t ∈ L) (x : ℕ) (hx : x ∈ t) :
    L.countP (fun f => decide (x ∈ f)) = 1 := by
  induction L with
  | nil => cases ht
  | cons u L ih =>
    rw [List.pairwise_cons] at hP
    rcases List.mem_cons.mp ht with rfl | htL
    · rw [List.countP_cons_of_pos _ _ (by simpa using hx)]
      have h0 : L.countP (fun f => decide (x ∈ f)) = 0 := by
        rw [List.countP_eq_zero]
        intro f hf
        simpa using Finset.disjoint_left.mp (hP.1 f hf) hx
      omega
    · have hxu : x ∉ u := fun hxu =>
        Finset.disjoint_left.mp (hP.1 t htL) hxu hx
      rw [List.countP_cons_of_neg _ _ (by simpa using hxu)]
      exact ih hP.2 htL

/-- A concrete collaborator whose weight function is constantly 0: with
`min_weight = 1` every detected bond is weight-filtered away. -/
def exC3 : Collab :=
  { cr := fun _ => 1
    vdw := fun _ => 0
    dist := fun _ _ => 1
    angleGT90 := fun _ _ _ => true
    bendValid := fun _ => true
    dihedralValid := fun _ => true
    bendGEmax := fun _ => false
    degOf := fun _ => 0
    weight := fun _ _ => 0 }

/-- C3 (counterexample): two bonded atoms whose bond falls below
`min_weight = 1`.  The bond still marks both atoms as bonded (so no
singleton fragments are created) while `merge_sets` receives no set, leaving
atom 0 (an index below the atom count 2) in no fragment at all. -/
theorem claim_C3_counterexample :
    ((setup_redundant exC3 [ "e", "e" ] (13 / 10) [] (some 1) none 4).fragments.countP
      (fun f => decide ((0 : ℕ) ∈ f)) = 0) ∧
    (0 : ℕ) < ([ "e", "e" ] : List String).length := by
  constructor
  · with_unfolding_all decide
  · decide

/-- C3 (amended): with `min_weight` unset, every atom index below the atom
count lies in exactly one fragment of the returned `CoordInfo` — the
fragments partition the atom range. -/
theorem claim_C3_amended (C : Collab) (atoms : List String) (factor : ℚ)
    (dp : List (List ℕ)) (lb : Option ℚ) (lbm : ℕ) (i : ℕ) (hi : i < atoms.length) :
    ((setup_redundant C atoms factor dp none lb lbm).fragments.countP
      (fun f => decide (i ∈ f))) = 1 := by
  show (fragmentsOf C atoms factor dp none).countP _ = 1
  unfold fragmentsOf
  rw [List.countP_append]
  have hsets : bondIndSetsOf C atoms factor dp none =
      (bondIndsOf C atoms factor dp).map List.toFinset := by
    unfold bondIndSetsOf
    congr 1
    simp [keep_coord]
  by_cases hj : i ∈ (bondIndsOf C atoms factor dp).flatten
  · obtain ⟨t, ht, hit⟩ : ∃ t ∈ merge_sets (bondIndSetsOf C atoms factor dp none), i ∈ t := by
      rw [merge_sets_mem, hsets]
      obtain ⟨l, hl, hil⟩ := List.mem_flatten.mp hj
      exact ⟨l.toFinset, List.mem_map_of_mem _ hl, List.mem_toFinset.mpr hil⟩
    have h1 := countP_eq_one_of_pairwise_disjoint _ (merge_sets_pairwise _) t ht i hit
    have h2 : (((List.range atoms.length).filter
        (fun a => decide (a ∉ (bondIndsOf C atoms factor dp).flatten))).map
        (fun a => ({a} : Finset ℕ))).countP (fun f => decide (i ∈ f)) = 0 := by
      rw [List.countP_eq_zero]
      intro f hf
      obtain ⟨a, ha, rfl⟩ := List.mem_map.mp hf
      have ha' := (List.mem_filter.mp ha).2
      simp only [decide_eq_true_eq] at ha' ⊢
      rw [Finset.mem_singleton]
      rintro rfl
      exact ha' hj
    omega
  · have h1 : (merge_sets (bondIndSetsOf C atoms factor dp none)).countP
        (fun f => decide (i ∈ f)) = 0 := by
      rw [List.countP_eq_zero]
      intro t ht
      simp only [decide_eq_true_eq]
      intro hit
      apply hj
      have := (merge_sets_mem (bondIndSetsOf C atoms factor dp none) i).mp ⟨t, ht, hit⟩
      rw [hsets] at this
      obtain ⟨s, hs, his⟩ := this
      obtain ⟨l, hl, rfl⟩ := List.mem_map.mp hs
      exact List.mem_flatten.mpr ⟨l, hl, List.mem_toFinset.mp his⟩
    have hnd : ((List.range atoms.length).filter
        (fun a => decide (a ∉ (bondIndsOf C atoms factor dp).flatten))).Nodup :=
      List.Nodup.filter _ (List.nodup_range _)
    have hpw : (((List.range atoms.length).filter
        (fun a => decide (a ∉ (bondIndsOf C atoms factor dp).flatten))).map
        (fun a => ({a} : Finset ℕ))).Pairwise Disjoint := by
      refine List.Pairwise.map _ ?_ hnd
      intro a b hab
      simpa using Ne.symm hab
    have hmem : ({i} : Finset ℕ) ∈ (((List.range atoms.length).filter
        (fun a => decide (a ∉ (bondIndsOf C atoms factor dp).flatten))).map
        (fun a => ({a} : Finset ℕ))) :=
      List.mem_map.mpr ⟨i, List.mem_filter.mpr
        ⟨List.mem_range.mpr hi, by simpa using hj⟩, rfl⟩
    have h2 := countP_eq_one_of_pairwise_disjoint _ hpw _ hmem i
      (Finset.mem_singleton_self i)
    omega

/-- Witness for the amended C3 at the concrete input `exC1` / `exAtoms1`,
atom index 2. -/
theorem claim_C3_amended_witness :
    ((setup_redundant exC1 exAtoms1 (13 / 10) [] none none 4).fragments.countP
      (fun f => decide ((2 : ℕ) ∈ f))) = 1 :=
  claim_C3_amended exC1 exAtoms1 (13 / 10) [] none 4 2 (by decide)

/-!
### C4 / C5: `get_dihedral_inds`
-/

/-- Two dihedral index tuples that are neither equal nor mutual reversals. -/
def revDistinct (a b : List ℕ) : Prop :=
  a ≠ b ∧ a.reverse ≠ b

theorem set_dihedral_index_pairwise (v : List ℕ → Bool) (ds : List (List ℕ))
    (d : List ℕ) (h : ds.Pairwise revDistinct) :
    (set_dihedral_index v ds d).Pairwise revDistinct := by
  unfold set_dihedral_index
  split
  · exact h
  · rename_i hnm
    push_neg at hnm
    split
    · rw [List.pairwise_append]
      refine ⟨h, List.pairwise_singleton _ _, ?_⟩
      intro a ha b hb
      rw [List.mem_singleton] at hb
      subst hb
      refine ⟨fun he => hnm.1 (he ▸ ha), fun he => ?_⟩
      exact hnm.2 (by rw [← he, List.reverse_reverse]; exact ha)
    · exact h

theorem set_dihedral_index_valid (v : List ℕ → Bool) (ds : List (List ℕ))
    (d : List ℕ) (h : ∀ x ∈ ds, v x = true) :
    ∀ x ∈ set_dihedral_index v ds d, v x = true := by
  unfold set_dihedral_index
  split
  · exact h
  · split
    · rename_i hv
      intro x hx
      rcases List.mem_append.mp hx with hx | hx
      · exact h x hx
      · rw [List.mem_singleton] at hx
        exact hx ▸ hv
    · exact h

theorem set_dihedral_index_length (v : List ℕ → Bool) (ds : List (List ℕ))
    (d : List ℕ) : ds.length ≤ (set_dihedral_index v ds d).length := by
  unfold set_dihedral_index
  split
  · exact le_refl _
  · split
    · simp
    · exact le_refl _

theorem foldl_sdi_pairwise (v : List ℕ → Bool) (cands : List (List ℕ))
    (ds : List (List ℕ)) (h : ds.Pairwise revDistinct) :
    (cands.foldl (set_dihedral_index v) ds).Pairwise revDistinct := by
  induction cands generalizing ds with
  | nil => exact h
  | cons c cands ih => exact ih _ (set_dihedral_index_pairwise v ds c h)

theorem foldl_sdi_valid (v : List ℕ → Bool) (cands : List (List ℕ))
    (ds : List (List ℕ)) (h : ∀ x ∈ ds, v x = true) :
    ∀ x ∈ cands.foldl (set_dihedral_index v) ds, v x = true := by
  induction cands generalizing ds with
  | nil => exact h
  | cons c cands ih => exact ih _ (set_dihedral_index_valid v ds c h)

theorem foldl_sdi_length (v : List ℕ → Bool) (cands : List (List ℕ))
    (ds : List (List ℕ)) : ds.length ≤ (cands.foldl (set_dihedral_index v) ds).length := by
  induction cands generalizing ds with
  | nil => exact le_refl _
  | cons c cands ih => exact le_trans (set_dihedral_index_length v ds c) (ih _)

theorem dihedStep_inv (C : Collab) (bonds : List (ℕ × ℕ))
    (st : List (List ℕ) × List (List ℕ)) (bb : (ℕ × ℕ) × List ℕ)
    (h1 : st.1.Pairwise revDistinct)
    (h2 : ∀ x ∈ st.1, C.dihedralValid x = true)
    (h3 : ∀ x ∈ st.2, C.dihedralValid x = true) :
    (dihedStep C bonds st bb).1.Pairwise revDistinct ∧
    (∀ x ∈ (dihedStep C bonds st bb).1, C.dihedralValid x = true) ∧
    (∀ x ∈ (dihedStep C bonds st bb).2, C.dihedralValid x = true) := by
  unfold dihedStep
  dsimp only
  split
  · exact ⟨h1, h2, h3⟩
  · split
    · exact ⟨foldl_sdi_pairwise _ _ _ h1, foldl_sdi_valid _ _ _ h2, h3⟩
    · split
      · rename_i hv
        refine ⟨h1, h2, ?_⟩
        intro x hx
        rcases List.mem_append.mp hx with hx | hx
        · exact h3 x hx
        · rw [List.mem_singleton] at hx
          exact hx ▸ hv
      · exact ⟨h1, h2, h3⟩

theorem foldl_dihedStep_inv (C : Collab) (bonds : List (ℕ × ℕ))
    (l : List ((ℕ × ℕ) × List ℕ)) (st : List (List ℕ) × List (List ℕ))
    (h1 : st.1.Pairwise revDistinct)
    (h2 : ∀ x ∈ st.1, C.dihedralValid x = true)
    (h3 : ∀ x ∈ st.2, C.dihedralValid x = true) :
    (l.foldl (dihedStep C bonds) st).1.Pairwise revDistinct ∧
    (∀ x ∈ (l.foldl (dihedStep C bonds) st).1, C.dihedralValid x = true) ∧
    (∀ x ∈ (l.foldl (dihedStep C bonds) st).2, C.dihedralValid x = true) := by
  induction l generalizing st with
  | nil => exact ⟨h1, h2, h3⟩
  | cons bb l ih =>
    obtain ⟨g1, g2, g3⟩ := dihedStep_inv C bonds st bb h1 h2 h3
    exact ih _ g1 g2 g3

theorem dihedLoop_inv (C : Collab) (bonds : List (ℕ × ℕ)) (bends : List (List ℕ)) :
    (dihedLoop C bonds bends).1.Pairwise revDistinct ∧
    (∀ x ∈ (dihedLoop C bonds bends).1, C.dihedralValid x = true) ∧
    (∀ x ∈ (dihedLoop C bonds bends).2, C.dihedralValid x = true) :=
  foldl_dihedStep_inv C bonds _ ([], [])
    List.Pairwise.nil (by intro x hx; cases hx) (by intro x hx; cases hx)

theorem get_dihedral_inds_pairwise (C : Collab) (n : ℕ) (bonds : List (ℕ × ℕ))
    (bends : List (List ℕ)) :
    (get_dihedral_inds C n bonds bends).Pairwise revDistinct := by
  obtain ⟨g1, g2, g3⟩ := dihedLoop_inv C bonds bends
  unfold get_dihedral_inds
  dsimp only
  split
  · exact foldl_sdi_pairwise _ _ _ g1
  · exact g1

theorem get_dihedral_inds_valid (C : Collab) (n : ℕ) (bonds : List (ℕ × ℕ))
    (bends : List (List ℕ)) :
    ∀ x ∈ get_dihedral_inds C n bonds bends, C.dihedralValid x = true := by
  obtain ⟨g1, g2, g3⟩ := dihedLoop_inv C bonds bends
  unfold get_dihedral_inds
  dsimp only
  split
  · exact foldl_sdi_valid _ _ _ g2
  · exact g2

theorem foldl_sdi_cons_ne_nil (v : List ℕ → Bool) (c : List ℕ)
    (cands : List (List ℕ)) (hv : v c = true) :
    (c :: cands).foldl (set_dihedral_index v) [] ≠ [] := by
  rw [List.foldl_cons]
  have h0 : set_dihedral_index v [] c = [c] := by
    unfold set_dihedral_index
    simp [hv]
  rw [h0]
  intro he
  have hl := foldl_sdi_length v cands [c]
  rw [he] at hl
  simp at hl

/-- C4 (counterexample): a `define_prims` entry and its reversal are both
appended to the returned dihedral list without the reversal deduplication
that the detector applies to its own candidates. -/
theorem claim_C4_counterexample :
    (setup_redundant exC1 [] (13 / 10) [[0, 1, 2, 3], [3, 2, 1, 0]] none none 4).dihedrals =
      [[0, 1, 2, 3], [3, 2, 1, 0]] ∧
    ([0, 1, 2, 3] : List ℕ).reverse = [3, 2, 1, 0] := by
  constructor
  · with_unfolding_all decide
  · decide

/-- C4 (amended): when `define_prims` supplies no 4-index tuples, no two
entries of the returned dihedral list are equal or mutual reversals. -/
theorem claim_C4_amended (C : Collab) (atoms : List String) (factor : ℚ)
    (dp : List (List ℕ)) (mw : Option ℚ) (lb : Option ℚ) (lbm : ℕ)
    (hdp : ∀ d ∈ dp, d.length = 2 ∨ d.length = 3) :
    (setup_redundant C atoms factor dp mw lb lbm).dihedrals.Pairwise revDistinct := by
  show (dihedralIndsOf C atoms factor dp mw lb lbm).Pairwise revDistinct
  unfold dihedralIndsOf
  have hdd : (sort_by_prim_type dp).2.2 = [] := by
    unfold sort_by_prim_type
    rw [List.filter_eq_nil_iff]
    intro d hd
    rcases hdp d hd with h | h <;> simp [h]
  rw [hdd, List.append_nil]
  exact List.Pairwise.filter _ (get_dihedral_inds_pairwise C _ _ _)

/-- Witness for the amended C4 at the concrete input `exC1` / `exAtoms1` with
a bond-only `define_prims`. -/
theorem claim_C4_amended_witness :
    (setup_redundant exC1 exAtoms1 (13 / 10) [[0, 1]] none none 4).dihedrals.Pairwise
      revDistinct :=
  claim_C4_amended exC1 exAtoms1 (13 / 10) [[0, 1]] none none 4 (by decide)

/-- C5: the torsion detector returns something beyond the proper dihedrals
of its main loop iff the main loop accepted none, collected at least one
valid improper candidate, and at least 4 atoms are present; every returned
dihedral passes the validity check and the reversal deduplication; and (at a
concrete star-shaped input) two permutationally equivalent impropers over
the same atom set are both kept. -/
theorem claim_C5 :
    (∀ (C : Collab) (n : ℕ) (bonds : List (ℕ × ℕ)) (bends : List (List ℕ)),
      ((get_dihedral_inds C n bonds bends ≠ (dihedLoop C bonds bends).1) ↔
        ((dihedLoop C bonds bends).1 = [] ∧ (dihedLoop C bonds bends).2 ≠ [] ∧ 4 ≤ n))
      ∧ (∀ d ∈ get_dihedral_inds C n bonds bends, C.dihedralValid d = true)
      ∧ (get_dihedral_inds C n bonds bends).Pairwise revDistinct)
    ∧ ([2, 0, 3, 1] ∈ get_dihedral_inds exC1 4 [(0, 1), (0, 2), (0, 3)]
        [[1, 0, 2], [1, 0, 3], [2, 0, 3]]
      ∧ [1, 0, 3, 2] ∈ get_dihedral_inds exC1 4 [(0, 1), (0, 2), (0, 3)]
        [[1, 0, 2], [1, 0, 3], [2, 0, 3]]
      ∧ ([2, 0, 3, 1] : List ℕ) ≠ [1, 0, 3, 2]
      ∧ ([2, 0, 3, 1] : List ℕ).toFinset = ([1, 0, 3, 2] : List ℕ).toFinset
      ∧ (dihedLoop exC1 [(0, 1), (0, 2), (0, 3)]
          [[1, 0, 2], [1, 0, 3], [2, 0, 3]]).1 = []) := by
  constructor
  · intro C n bonds bends
    refine ⟨?_, get_dihedral_inds_valid C n bonds bends,
      get_dihedral_inds_pairwise C n bonds bends⟩
    constructor
    · intro hne
      by_cases h4 : 4 ≤ n ∧ (dihedLoop C bonds bends).1 = []
      · refine ⟨h4.2, ?_, h4.1⟩
        intro h2
        apply hne
        unfold get_dihedral_inds
        rw [if_pos h4, h2]
        rfl
      · exfalso
        apply hne
        unfold get_dihedral_inds
        rw [if_neg h4]
    · rintro ⟨hp, hc, h4⟩
      unfold get_dihedral_inds
      rw [if_pos ⟨h4, hp⟩, hp]
      obtain ⟨c, rest, hcr⟩ : ∃ c rest, (dihedLoop C bonds bends).2 = c :: rest := by
        rcases he : (dihedLoop C bonds bends).2 with _ | ⟨c, rest⟩
        · exact absurd he hc
        · exact ⟨c, rest, rfl⟩
      rw [hcr]
      have hv : C.dihedralValid c = true :=
        (dihedLoop_inv C bonds bends).2.2 c (hcr ▸ List.mem_cons_self c rest)
      exact foldl_sdi_cons_ne_nil C.dihedralValid c rest hv
  · refine ⟨?_, ?_, by decide, by decide, ?_⟩ <;> with_unfolding_all decide

/-!
### C6 / C7: `connect_fragments`
-/

theorem argminIdx_lt (l : List ℚ) (h : l ≠ []) : argminIdx l < l.length := by
  induction l with
  | nil => exact absurd rfl h
  | cons x xs ih =>
    cases xs with
    | nil => simp [argminIdx]
    | cons y ys =>
      rw [argminIdx]
      split
      · simp
      · have := ih (by simp)
        simpa using this

theorem argminIdx_le_getD (l : List ℚ) :
    ∀ r : ℕ, r < l.length → l.getD (argminIdx l) 0 ≤ l.getD r 0 := by
  induction l with
  | nil => intro r hr; simp at hr
  | cons x xs ih =>
    intro r hr
    cases xs with
    | nil =>
      have : r = 0 := by simpa using hr
      subst this
      simp [argminIdx]
    | cons y ys =>
      rw [argminIdx]
      split
      · rename_i hle
        cases r with
        | zero => simp
        | succ k =>
          rw [List.getD_cons_zero, List.getD_cons_succ]
          exact le_trans hle (ih k (by simpa using hr))
      · rename_i hle
        rw [List.getD_cons_succ]
        cases r with
        | zero =>
          rw [List.getD_cons_zero]
          exact le_of_lt (lt_of_not_le hle)
        | succ k =>
          rw [List.getD_cons_succ]
          exact ih k (by simpa using hr)

theorem argminIdx_first (l : List ℚ) :
    ∀ r : ℕ, r < argminIdx l → l.getD (argminIdx l) 0 < l.getD r 0 := by
  induction l with
  | nil => intro r hr; simp [argminIdx] at hr
  | cons x xs ih =>
    intro r hr
    cases xs with
    | nil => simp [argminIdx] at hr
    | cons y ys =>
      rw [argminIdx] at hr ⊢
      split at hr
      · omega
      · rename_i hle
        rw [if_neg hle, List.getD_cons_succ]
        cases r with
        | zero =>
          rw [List.getD_cons_zero]
          exact lt_of_not_le hle
        | succ k =>
          rw [List.getD_cons_succ]
          exact ih k (by omega)

theorem mem_listProd {α β : Type} (l1 : List α) (l2 : List β) (p : α × β) :
    p ∈ listProd l1 l2 ↔ p.1 ∈ l1 ∧ p.2 ∈ l2 := by
  rcases p with ⟨a, b⟩
  unfold listProd
  simp only [List.mem_flatMap, List.mem_map, Prod.mk.injEq]
  constructor
  · rintro ⟨c, hc, d, hd, rfl, rfl⟩
    exact ⟨hc, hd⟩
  · rintro ⟨ha, hb⟩
    exact ⟨a, ha, b, hb, rfl, rfl⟩

theorem listProd_nodup {α β : Type} (l1 : List α) (l2 : List β)
    (h1 : l1.Nodup) (h2 : l2.Nodup) : (listProd l1 l2).Nodup := by
  induction l1 with
  | nil => exact List.Pairwise.nil
  | cons a l1 ih =>
    rw [List.nodup_cons] at h1
    show (List.map _ l2 ++ listProd l1 l2).Nodup
    rw [List.nodup_append]
    refine ⟨List.Nodup.map (fun x y hxy => congrArg Prod.snd hxy) h2, ih h1.2, ?_⟩
    · intro p hp hq
      obtain ⟨b, hb, rfl⟩ := List.mem_map.mp hp
      have := ((mem_listProd l1 l2 _).mp hq).1
      exact h1.1 this

theorem listProd_ne_nil {α β : Type} (l1 : List α) (l2 : List β)
    (h1 : l1 ≠ []) (h2 : l2 ≠ []) : listProd l1 l2 ≠ [] := by
  rcases List.exists_mem_of_ne_nil l1 h1 with ⟨a, ha⟩
  rcases List.exists_mem_of_ne_nil l2 h2 with ⟨b, hb⟩
  exact List.ne_nil_of_mem ((mem_listProd l1 l2 (a, b)).mpr ⟨ha, hb⟩)

theorem mem_combinations2_both {α : Type} (l : List α) (p : α × α)
    (hp : p ∈ combinations2 l) : p.1 ∈ l ∧ p.2 ∈ l := by
  induction l with
  | nil => cases hp
  | cons x xs ih =>
    rcases List.mem_append.mp hp with h | h
    · obtain ⟨b, hb, rfl⟩ := List.mem_map.mp h
      exact ⟨List.mem_cons_self _ _, List.mem_cons_of_mem _ hb⟩
    · have := ih h
      exact ⟨List.mem_cons_of_mem _ this.1, List.mem_cons_of_mem _ this.2⟩

/-- C7: `connect_fragments` emits exactly one primary bond per fragment pair
(in the enumeration order of `itertools.combinations`), namely the cross
pair at the first index attaining the minimal distance over
`itertools.product(frag1, frag2)`; with at most one fragment both outputs
are empty. -/
theorem claim_C7 (C : Collab) (fs : List (List ℕ)) (hne : ∀ f ∈ fs, f ≠ []) :
    ((connect_fragments C (378 / 100) (13 / 10) fs).1 =
      (combinations2 fs).map (fun fp => (connectPair C (378 / 100) (13 / 10) fp.1 fp.2).1))
    ∧ (∀ f1 f2 : List ℕ, (f1, f2) ∈ combinations2 fs →
        ∃ (m : ℕ) (hm : m < (listProd f1 f2).length),
          (connectPair C (378 / 100) (13 / 10) f1 f2).1 = (listProd f1 f2).get ⟨m, hm⟩
          ∧ (∀ (r : ℕ) (hr : r < (listProd f1 f2).length),
              dOf C ((listProd f1 f2).get ⟨m, hm⟩).1 ((listProd f1 f2).get ⟨m, hm⟩).2 ≤
                dOf C ((listProd f1 f2).get ⟨r, hr⟩).1 ((listProd f1 f2).get ⟨r, hr⟩).2)
          ∧ (∀ (r : ℕ) (hr : r < (listProd f1 f2).length), r < m →
              dOf C ((listProd f1 f2).get ⟨m, hm⟩).1 ((listProd f1 f2).get ⟨m, hm⟩).2 <
                dOf C ((listProd f1 f2).get ⟨r, hr⟩).1 ((listProd f1 f2).get ⟨r, hr⟩).2))
    ∧ (fs.length ≤ 1 → connect_fragments C (378 / 100) (13 / 10) fs = ([], [])) := by
  refine ⟨rfl, ?_, ?_⟩
  · intro f1 f2 hmemc
    have hf1 : f1 ≠ [] := hne f1 (mem_combinations2_both fs _ hmemc).1
    have hf2 : f2 ≠ [] := hne f2 (mem_combinations2_both fs _ hmemc).2
    have hpne : listProd f1 f2 ≠ [] := listProd_ne_nil f1 f2 hf1 hf2
    have hdne : (listProd f1 f2).map (fun p => dOf C p.1 p.2) ≠ [] := by
      intro h
      exact hpne (List.map_eq_nil_iff.mp h)
    have hlen : ((listProd f1 f2).map (fun p => dOf C p.1 p.2)).length =
        (listProd f1 f2).length := List.length_map _ _
    have hm : argminIdx ((listProd f1 f2).map (fun p => dOf C p.1 p.2)) <
        (listProd f1 f2).length := hlen ▸ argminIdx_lt _ hdne
    have key : ∀ (k : ℕ) (hk : k < (listProd f1 f2).length),
        ((listProd f1 f2).map (fun p => dOf C p.1 p.2)).getD k 0 =
          dOf C ((listProd f1 f2).get ⟨k, hk⟩).1 ((listProd f1 f2).get ⟨k, hk⟩).2 := by
      intro k hk
      rw [List.getD_eq_getElem _ _ (by simpa using hk), List.getElem_map]
      rfl
    refine ⟨argminIdx ((listProd f1 f2).map (fun p => dOf C p.1 p.2)), hm, ?_, ?_, ?_⟩
    · show (listProd f1 f2).getD _ (0, 0) = _
      rw [List.getD_eq_getElem _ _ hm]
      rfl
    · intro r hr
      rw [← key _ hm, ← key _ hr]
      exact argminIdx_le_getD _ r (hlen ▸ hr)
    · intro r hr hrm
      rw [← key _ hm, ← key _ hr]
      exact argminIdx_first _ r hrm
  · intro hlen1
    have hcomb : combinations2 fs = [] := by
      cases fs with
      | nil => rfl
      | cons f fs' =>
        cases fs' with
        | nil => rfl
        | cons g fs'' => simp at hlen1
    unfold connect_fragments
    rw [hcomb]
    rfl

/-- Witness for C7 at two singleton fragments. -/
theorem claim_C7_witness :
    (connect_fragments exC1 (378 / 100) (13 / 10) [[0], [3]]).1 =
      (combinations2 [[0], [3]]).map
        (fun fp => (connectPair exC1 (378 / 100) (13 / 10) fp.1 fp.2).1) :=
  (claim_C7 exC1 [[0], [3]] (by decide)).1

theorem countP_eq_le_one {α : Type} [DecidableEq α] (l : List α) (hl : l.Nodup)
    (a : α) : l.countP (fun x => decide (x = a)) ≤ 1 := by
  induction l with
  | nil => simp
  | cons x xs ih =>
    rw [List.nodup_cons] at hl
    by_cases hxa : x = a
    · subst hxa
      rw [List.countP_cons_of_pos _ _ (by simp)]
      have hz : xs.countP (fun y => decide (y = x)) = 0 := by
        rw [List.countP_eq_zero]
        intro b hb
        simp only [decide_eq_true_eq]
        rintro rfl
        exact hl.1 hb
      omega
    · rw [List.countP_cons_of_neg _ _ (by simpa using hxa)]
      exact ih hl.2

theorem countP_eq_append_le_one {α : Type} [DecidableEq α] (l1 l2 : List α)
    (h1 : l1.Nodup) (h2 : l2.Nodup) (hd : ∀ a ∈ l1, a ∉ l2) (p : α) :
    (l1 ++ l2).countP (fun x => decide (x = p)) ≤ 1 := by
  rw [List.countP_append]
  by_cases hp : p ∈ l1
  · have hz : l2.countP (fun x => decide (x = p)) = 0 := by
      rw [List.countP_eq_zero]
      intro a ha
      simp only [decide_eq_true_eq]
      rintro rfl
      exact hd a hp ha
    rw [hz]
    have hle := countP_eq_le_one l1 h1 p
    omega
  · have hz : l1.countP (fun x => decide (x = p)) = 0 := by
      rw [List.countP_eq_zero]
      intro a ha
      simp only [decide_eq_true_eq]
      rintro rfl
      exact hp ha
    rw [hz]
    have hle := countP_eq_le_one l2 h2 p
    omega

theorem connect_fragments_pair_aux (C : Collab) (ma af : ℚ) (f1 f2 : List ℕ) :
    (connect_fragments C ma af [f1, f2]).2 = (connectPair C ma af f1 f2).2 := by
  unfold connect_fragments
  simp [combinations2]

/-- C6: for a pair of (duplicate-free, nonempty) fragments, a cross pair
other than the primary bond is listed as auxiliary iff its distance is
strictly below the absolute cutoff `3.78` or strictly below `1.3` times the
primary minimum distance, and no pair is listed twice (the scaled-minimum
collection excludes what the absolute cutoff already collected). -/
theorem claim_C6 (C : Collab) (f1 f2 : List ℕ) (h1 : f1.Nodup) (h2 : f2.Nodup)
    (hne1 : f1 ≠ []) (hne2 : f2 ≠ []) :
    (∀ p : ℕ × ℕ,
      p ∈ (connect_fragments C (378 / 100) (13 / 10) [f1, f2]).2 ↔
        (p ∈ listProd f1 f2 ∧ p ≠ (connectPair C (378 / 100) (13 / 10) f1 f2).1 ∧
          (dOf C p.1 p.2 < 378 / 100 ∨
            dOf C p.1 p.2 < (13 / 10) *
              dOf C (connectPair C (378 / 100) (13 / 10) f1 f2).1.1
                (connectPair C (378 / 100) (13 / 10) f1 f2).1.2)))
    ∧ (∀ p : ℕ × ℕ, (connect_fragments C (378 / 100) (13 / 10) [f1, f2]).2.countP
        (fun q => decide (q = p)) ≤ 1) := by
  have hpne : listProd f1 f2 ≠ [] := listProd_ne_nil f1 f2 hne1 hne2
  have hdne : (listProd f1 f2).map (fun p => dOf C p.1 p.2) ≠ [] :=
    fun h => hpne (List.map_eq_nil_iff.mp h)
  have hlen : ((listProd f1 f2).map (fun p => dOf C p.1 p.2)).length =
      (listProd f1 f2).length := List.length_map _ _
  have hm : argminIdx ((listProd f1 f2).map (fun p => dOf C p.1 p.2)) <
      (listProd f1 f2).length := hlen ▸ argminIdx_lt _ hdne
  have hmd : ((listProd f1 f2).map (fun p => dOf C p.1 p.2)).getD
        (argminIdx ((listProd f1 f2).map (fun p => dOf C p.1 p.2))) 0 =
      dOf C ((listProd f1 f2).getD
          (argminIdx ((listProd f1 f2).map (fun p => dOf C p.1 p.2))) (0, 0)).1
        ((listProd f1 f2).getD
          (argminIdx ((listProd f1 f2).map (fun p => dOf C p.1 p.2))) (0, 0)).2 := by
    rw [List.getD_eq_getElem _ _ (by simpa using hm), List.getD_eq_getElem _ _ hm,
      List.getElem_map]
  constructor
  · intro p
    rw [connect_fragments_pair_aux]
    simp only [connectPair]
    rw [List.mem_append, List.mem_filter, List.mem_filter]
    simp only [decide_eq_true_eq, hmd]
    constructor
    · rintro (⟨hi, hd, hp⟩ | ⟨hi, hd, hp, hnb⟩)
      · exact ⟨hi, hp, Or.inl hd⟩
      · exact ⟨hi, hp, Or.inr hd⟩
    · rintro ⟨hi, hp, (hd | hd)⟩
      · exact Or.inl ⟨hi, hd, hp⟩
      · by_cases hma : dOf C p.1 p.2 < 378 / 100
        · exact Or.inl ⟨hi, hma, hp⟩
        · refine Or.inr ⟨hi, hd, hp, fun hmem => ?_⟩
          have hmem2 := List.mem_filter.mp hmem
          rw [decide_eq_true_eq] at hmem2
          exact hma hmem2.2.1
  · intro p
    rw [connect_fragments_pair_aux]
    simp only [connectPair]
    have hnodup : (listProd f1 f2).Nodup := listProd_nodup f1 f2 h1 h2
    refine countP_eq_append_le_one _ _ (hnodup.filter _) (hnodup.filter _) ?_ p
    intro a ha hb
    have hb2 := List.mem_filter.mp hb
    rw [decide_eq_true_eq] at hb2
    exact hb2.2.2.2 ha

/-- Witness for C6: the cross pair `(1, 2)` (distance 1, below the absolute
cutoff) is an auxiliary bond between the fragments `[0, 1]` and `[2, 3]`. -/
theorem claim_C6_witness :
    (1, 2) ∈ (connect_fragments exC1 (378 / 100) (13 / 10) [[0, 1], [2, 3]]).2 :=
  ((claim_C6 exC1 [0, 1] [2, 3] (by decide) (by decide) (by decide) (by decide)).1
    (1, 2)).mpr (by with_unfolding_all decide)

theorem setup_redundant_bends (C : Collab) (atoms : List String) (factor : ℚ)
    (dp : List (List ℕ)) (mw : Option ℚ) (lb : Option ℚ) (lbm : ℕ) :
    (setup_redundant C atoms factor dp mw lb lbm).bends =
      finalBendsOf C atoms factor dp mw lb lbm := rfl

theorem setup_redundant_dihedrals (C : Collab) (atoms : List String) (factor : ℚ)
    (dp : List (List ℕ)) (mw : Option ℚ) (lb : Option ℚ) (lbm : ℕ) :
    (setup_redundant C atoms factor dp mw lb lbm).dihedrals =
      dihedralIndsOf C atoms factor dp mw lb lbm := rfl

theorem setup_redundant_bonds_eq (C : Collab) (atoms : List String) (factor : ℚ)
    (dp : List (List ℕ)) (mw mw2 : Option ℚ) (lb : Option ℚ) (lbm : ℕ) :
    (setup_redundant C atoms factor dp mw lb lbm).bonds =
      (setup_redundant C atoms factor dp mw2 lb lbm).bonds := rfl

/-!
### C1: placement of the `min_weight` filter in `setup_redundant`
-/

/-- C1 (counterexample): with `min_weight = 1`, the bond `(1, 2)` of weight 0
is still present in the returned bond list — candidate bonds below
`min_weight` are not dropped from the output. -/
theorem claim_C1_counterexample :
    [1, 2] ∈ (setup_redundant exC1 exAtoms1 (13 / 10) [] (some 1) none 4).bonds ∧
    exC1.weight PrimClass.stretch [1, 2] < 1 := by
  constructor
  · with_unfolding_all decide
  · with_unfolding_all decide

/-- C1 (amended): with `min_weight = some w`, every returned bend and
dihedral has weight at least `w`, but the returned bond list is identical to
the unfiltered run; the bond filter reaches only the fragment computation
(and, through the interfragment bonds it induces, the bond set consumed by
bend and dihedral detection) — at the concrete input `exC1` the filter
changes the detected fragments, bends and dihedrals. -/
theorem claim_C1_amended :
    (∀ (C : Collab) (atoms : List String) (factor : ℚ) (dp : List (List ℕ)) (w : ℚ)
        (lb : Option ℚ) (lbm : ℕ),
      (∀ b ∈ (setup_redundant C atoms factor dp (some w) lb lbm).bends,
        w ≤ C.weight PrimClass.bend b)
      ∧ (∀ d ∈ (setup_redundant C atoms factor dp (some w) lb lbm).dihedrals,
        w ≤ C.weight PrimClass.torsion d)
      ∧ (setup_redundant C atoms factor dp (some w) lb lbm).bonds =
          (setup_redundant C atoms factor dp none lb lbm).bonds)
    ∧ ((setup_redundant exC1 exAtoms1 (13 / 10) [] (some 1) none 4).fragments ≠
        (setup_redundant exC1 exAtoms1 (13 / 10) [] none none 4).fragments
      ∧ (setup_redundant exC1 exAtoms1 (13 / 10) [] (some 1) none 4).bends ≠
        (setup_redundant exC1 exAtoms1 (13 / 10) [] none none 4).bends
      ∧ (setup_redundant exC1 exAtoms1 (13 / 10) [] (some 1) none 4).dihedrals ≠
        (setup_redundant exC1 exAtoms1 (13 / 10) [] none none 4).dihedrals) := by
  constructor
  · intro C atoms factor dp w lb lbm
    refine ⟨?_, ?_, setup_redundant_bonds_eq C atoms factor dp (some w) none lb lbm⟩
    · intro b hb
      rw [setup_redundant_bends] at hb
      have hb2 : b ∈ bendIndsOf C atoms factor dp (some w) := by
        unfold finalBendsOf at hb
        cases lb with
        | none => exact hb
        | some d => exact (List.mem_filter.mp hb).1
      unfold bendIndsOf at hb2
      have hkeep := (List.mem_filter.mp hb2).2
      simpa [keep_coord] using hkeep
    · intro d hd
      rw [setup_redundant_dihedrals] at hd
      unfold dihedralIndsOf at hd
      have hkeep := (List.mem_filter.mp hd).2
      simpa [keep_coord] using hkeep
  · refine ⟨?_, ?_, ?_⟩ <;> with_unfolding_all decide

/-- Witness for the amended C1: the bend `[0, 1, 2]` returned by the
filtered run has weight at least the threshold 1. -/
theorem claim_C1_amended_witness :
    (1 : ℚ) ≤ exC1.weight PrimClass.bend [0, 1, 2] :=
  (claim_C1_amended.1 exC1 exAtoms1 (13 / 10) [] 1 none 4).1 [0, 1, 2]
    (by with_unfolding_all decide)

/-- Witness for C5: the promoted improper `[2, 0, 3, 1]` at the star input
passes the validity collaborator. -/
theorem claim_C5_witness :
    exC1.dihedralValid [2, 0, 3, 1] = true :=
  (claim_C5.1 exC1 4 [(0, 1), (0, 2), (0, 3)] [[1, 0, 2], [1, 0, 3], [2, 0, 3]]).2.1
    [2, 0, 3, 1] (by with_unfolding_all decide)
